import Mathlib

/-!
Verification of the tunneled FM-index (`tfm_index.hpp`, `tfm_index_invert.cpp`).

The C++ data structures are shallowly embedded: the wavelet tree over L is a
`List ℕ` (its `inverse_select` is computed directly), the sdsl bitvectors are
`List Bool`, and the rank/select supports are the mathematical functions they
implement (`rank1`, `select1`).  Stateful code (the compactor loop, the
bitvector file loader, `untunnel`'s output buffer) is embedded as explicit
state passing; reads and writes of in-place mutated arrays go through
`List.getD` / `List.set` exactly where the C++ reads and writes.
-/

/-! ## Small list helpers -/

/-- Reading a list after a `set`: changed at the written (in-bounds) index,
unchanged elsewhere. -/
theorem getD_set (l : List α) (i j : ℕ) (v d : α) :
    (l.set i v).getD j d = if i = j ∧ i < l.length then v else l.getD j d := by
  induction l generalizing i j with
  | nil => simp [List.set]
  | cons a t ih =>
    cases i with
    | zero =>
      cases j with
      | zero => simp [List.set, List.getD]
      | succ j => simp [List.set, List.getD]
    | succ i =>
      cases j with
      | zero => simp [List.set, List.getD]
      | succ j =>
        simp only [List.set, List.getD_cons_succ, List.length_cons, ih]
        by_cases h : i = j ∧ i < t.length
        · rw [if_pos h, if_pos ⟨by omega, by omega⟩]
        · rw [if_neg h, if_neg (fun hc => h ⟨by omega, by omega⟩)]

/-- Length is preserved by `List.set`. -/
theorem length_set_eq (l : List α) (i : ℕ) (v : α) :
    (l.set i v).length = l.length := List.length_set l i v

/-- Dropping at the index just written: the written value becomes the head. -/
theorem drop_set_cons (l : List α) (k : ℕ) (v : α) (h : k < l.length) :
    (l.set k v).drop k = v :: l.drop (k + 1) := by
  induction l generalizing k with
  | nil => simp at h
  | cons a t ih =>
    cases k with
    | zero => simp [List.set]
    | succ k =>
      simp only [List.set, List.drop_succ_cons]
      exact ih k (by simpa using h)

/-- `getD` of an out-of-range index is the default. -/
theorem getD_of_le (l : List α) (d : α) (j : ℕ) (h : l.length ≤ j) :
    l.getD j d = d := by
  induction l generalizing j with
  | nil => simp [List.getD]
  | cons a t ih =>
    cases j with
    | zero => simp at h
    | succ j => simpa [List.getD] using ih (j := j) (by simpa using h)

/-! ## Rank and select (sdsl semantics)

`rank1 bv i` counts the ones among positions `[0, i)`; `select1 bv k` is the
(0-based) position of the `k`-th one, `k ≥ 1`, as in sdsl. -/

def rank1 (bv : List Bool) (i : ℕ) : ℕ := (bv.take i).count true

def select1 : List Bool → ℕ → ℕ
  | [], _ => 0
  | b :: bs, k =>
    if b ∧ k ≤ 1 then 0
    else if b then select1 bs (k - 1) + 1
    else select1 bs k + 1

theorem rank1_zero (bv : List Bool) : rank1 bv 0 = 0 := by simp [rank1]

theorem rank1_succ (bv : List Bool) (k : ℕ) :
    rank1 bv (k + 1) = rank1 bv k + (if bv.getD k false then 1 else 0) := by
  induction bv generalizing k with
  | nil => simp [rank1, List.getD]
  | cons b t ih =>
    cases k with
    | zero =>
      cases b <;> simp [rank1, List.getD, List.count_cons]
    | succ k =>
      have h := ih k
      cases b <;>
        simp only [rank1, List.take_succ_cons, List.count_cons, List.getD_cons_succ,
          if_true, if_false, Bool.true_eq, Bool.false_eq] at h ⊢ <;>
        omega

theorem rank1_le (bv : List Bool) (k : ℕ) : rank1 bv k ≤ k := by
  induction k with
  | zero => simp [rank1_zero]
  | succ k ih =>
    rw [rank1_succ]
    split <;> omega

/-! ## The tunneled FM-index data model (`tfm_index.hpp`) -/

/-- The fields actually stored by `class tfm_index`: `text_len`, the wavelet
tree over L (as the plain sequence), `C`, and the two tunnel bitvectors.
The rank/select supports are derived functions of `dout` and `din`. -/
structure TfmIndex where
  text_len : ℕ
  L : List ℕ
  C : List ℕ
  dout : List Bool
  din : List Bool
deriving DecidableEq

/-- `size()` — the original text length. -/
def TfmIndex.size (t : TfmIndex) : ℕ := t.text_len

/-- `end()` — the pair `(0, 0)`. -/
def TfmIndex.endPos (_ : TfmIndex) : ℕ × ℕ := (0, 0)

/-- `preceding_char(pos)` — `L[pos.first]`. -/
def TfmIndex.preceding_char (t : TfmIndex) (pos : ℕ × ℕ) : ℕ :=
  t.L.getD pos.1 0

/-- `wt.inverse_select(i) = (rank_{L[i]}(i), L[i])` — sdsl wavelet-tree
semantics, computed directly on the sequence. -/
def inverse_select (L : List ℕ) (i : ℕ) : ℕ × ℕ :=
  ((L.take i).count (L.getD i 0), L.getD i 0)

/-- `backwardstep` transcribed from `tfm_index.hpp`: LF-map through `C` and
`inverse_select`, test `din[i]` for a tunnel entry (recording the offset),
jump via `dout_select(din_rank(i+1))`, and test `dout[i+1]` for a tunnel
exit (consuming the offset).  Returns the new position and the character
`c` read before the LF step. -/
def TfmIndex.backwardstep (t : TfmIndex) (pos : ℕ × ℕ) : (ℕ × ℕ) × ℕ :=
  let i0 := pos.1
  let o0 := pos.2
  let is := inverse_select t.L i0
  let c := is.2
  let i1 := t.C.getD c 0 + is.1
  let k := rank1 t.din (i1 + 1)
  let o1 := if t.din.getD i1 false = false then i1 - select1 t.din k else o0
  let i2 := select1 t.dout k
  let i3 := if t.dout.getD (i2 + 1) false = false then i2 + o1 else i2
  let o2 := if t.dout.getD (i2 + 1) false = false then 0 else o1
  ((i3, o2), c)

/-- `our_end()` — iterate `backwardstep` from `(0,0)` for
`i = 1, …, text_len − 1`, i.e. `text_len − 1` times. -/
def TfmIndex.our_end (t : TfmIndex) : ℕ × ℕ :=
  (fun p => (t.backwardstep p).1)^[t.text_len - 1] (0, 0)

/-- The characters returned by `k` successive `backwardstep`s from `pos`. -/
def emitList (t : TfmIndex) : ℕ × ℕ → ℕ → List ℕ
  | _, 0 => []
  | pos, Nat.succ k =>
      (t.backwardstep pos).2 :: emitList t (t.backwardstep pos).1 k

/-- The loop of `untunnel` (`tfm_index_invert.cpp`): at iteration `i` the
returned character is stored at buffer position `text_len − 1 − i`.  `fuel`
is the number of remaining iterations. -/
def untunnelGo (t : TfmIndex) : ℕ × ℕ → ℕ → ℕ → List ℕ → List ℕ
  | _, _, 0, buf => buf
  | pos, i, Nat.succ fuel, buf =>
      untunnelGo t (t.backwardstep pos).1 (i + 1) fuel
        (buf.set (t.text_len - 1 - i) (t.backwardstep pos).2)

/-- `untunnel`: allocate `size()` characters and run the loop for
`i ∈ [0, size())` starting from `end()`. -/
def untunnel (t : TfmIndex) : List ℕ :=
  untunnelGo t (0, 0) 0 t.text_len (List.replicate t.text_len 0)

/-! ## C2 — the spec's step-by-step description of `backwardstep` -/

/-- The backward step exactly as the specification words it (§4.1 steps 1–7):
`(r, c) = inverse_select_L(i)`; `i ← C[c] + r`; `k = din_rank_1(i+1)`;
if `din[i] = 0` then `o ← i − din_select_1(k)`; `i ← dout_select_1(k)`;
if `dout[i+1] = 0` then `i ← i + o; o ← 0`; return `c`. -/
def backwardstep_spec (t : TfmIndex) (pos : ℕ × ℕ) : (ℕ × ℕ) × ℕ :=
  let r := (inverse_select t.L pos.1).1
  let c := (inverse_select t.L pos.1).2
  let i1 := t.C.getD c 0 + r
  let k := rank1 t.din (i1 + 1)
  let o1 := if t.din.getD i1 false = false then i1 - select1 t.din k else pos.2
  let i2 := select1 t.dout k
  if t.dout.getD (i2 + 1) false = false then ((i2 + o1, 0), c) else ((i2, o1), c)

/-- Claim C2: for every index and position pair, `backwardstep` performs
exactly the steps the specification lists — it agrees with the literal
transcription `backwardstep_spec` of those steps, and the value it returns
is the L-character at the position read before the LF step. -/
theorem ite_pair_pair {c : Prop} [Decidable c] (a b x y v : ℕ) :
    ((if c then a else b, if c then x else y), v) =
      if c then ((a, x), v) else ((b, y), v) := by
  split <;> rfl

theorem c2_backwardstep_steps (t : TfmIndex) (pos : ℕ × ℕ) :
    t.backwardstep pos = backwardstep_spec t pos ∧
    (t.backwardstep pos).2 = t.L.getD pos.1 0 := by
  constructor
  · simp only [TfmIndex.backwardstep, backwardstep_spec]
    rw [ite_pair_pair]
  · simp only [TfmIndex.backwardstep, inverse_select]

/-- Witness for C2 at a concrete index and position. -/
theorem c2_backwardstep_steps_witness :
    (TfmIndex.mk 2 [2, 0, 1] [0, 1, 2] [true, true, true, true]
        [true, true, true, true]).backwardstep (0, 0) = ((2, 0), 2) :=
  ((c2_backwardstep_steps _ (0, 0)).1).trans (by decide)

/-! ## C1 — full inversion: `untunnel` and the emission order -/

theorem emitList_length (t : TfmIndex) (pos : ℕ × ℕ) (k : ℕ) :
    (emitList t pos k).length = k := by
  induction k generalizing pos with
  | zero => rfl
  | succ k ih => simp [emitList, ih]

theorem emitList_take (t : TfmIndex) (k : ℕ) (pos : ℕ × ℕ) :
    emitList t pos k = (emitList t pos (k + 1)).take k := by
  induction k generalizing pos with
  | zero => rfl
  | succ k ih =>
    show emitList t pos (k + 1) = _
    rw [emitList, emitList, List.take_succ_cons, ← ih]

/-- The `untunnel` loop writes the emitted characters into the buffer in
reverse: when `i + fuel = text_len`, the remaining iterations overwrite the
first `fuel` buffer cells with the reversed emissions. -/
theorem untunnelGo_eq (t : TfmIndex) (fuel : ℕ) :
    ∀ (pos : ℕ × ℕ) (i : ℕ) (buf : List ℕ),
      i + fuel = t.text_len → fuel ≤ buf.length →
      untunnelGo t pos i fuel buf =
        (emitList t pos fuel).reverse ++ buf.drop fuel := by
  induction fuel with
  | zero => intro pos i buf _ _; simp [untunnelGo, emitList]
  | succ fuel ih =>
    intro pos i buf hn hlen
    have hidx : t.text_len - 1 - i = fuel := by omega
    have hlt : fuel < buf.length := by omega
    rw [untunnelGo, hidx,
      ih (t.backwardstep pos).1 (i + 1) (buf.set fuel (t.backwardstep pos).2)
        (by omega) (by rw [length_set_eq]; omega),
      drop_set_cons _ _ _ hlt, emitList, List.reverse_cons, List.append_assoc]
    rfl

theorem untunnel_eq_reverse (t : TfmIndex) :
    untunnel t = (emitList t (0, 0) t.text_len).reverse := by
  rw [untunnel, untunnelGo_eq t t.text_len (0, 0) 0 _ (by omega) (by simp)]
  simp [List.drop_eq_nil_of_le]

theorem untunnel_length (t : TfmIndex) : (untunnel t).length = t.text_len := by
  rw [untunnel_eq_reverse, List.length_reverse, emitList_length]

/-- Modelled from the spec: the notion of a well-formed index over a text `T`
is not a function of the repository (the DBG reducer and prefix-interval
marker that establish it live outside `src/`).  Following §3 of the spec, it
comprises the structural invariants on `dout`/`din` (lengths `m+1`, sentinel
ones, equal popcounts) together with invariant 6 / §4.1: the characters
returned by the backward steps from `end()` are the characters of `T` from
last to first (the character of iteration `i` is the one at text position
`text_len − 1 − i`). -/
def WellFormedOver (t : TfmIndex) (T : List ℕ) : Prop :=
  t.text_len = T.length ∧
  t.dout.length = t.L.length + 1 ∧
  t.din.length = t.L.length + 1 ∧
  t.dout.getD t.L.length false = true ∧
  t.din.getD t.L.length false = true ∧
  rank1 t.dout (t.L.length + 1) = rank1 t.din (t.L.length + 1) ∧
  ∀ i, i < T.length →
    (emitList t (0, 0) T.length).getD i 0 = T.getD (T.length - 1 - i) 0

instance (t : TfmIndex) (T : List ℕ) : Decidable (WellFormedOver t T) := by
  unfold WellFormedOver; infer_instance

/-- Claim C1: over a well-formed index for a text `T` of length `n`,
`untunnel` reconstructs `T` exactly (the character emitted at iteration `i`
lands at text position `n − 1 − i`), and the first `n − 1` backward steps
from `end()` emit the characters of `T` in reverse order. -/
theorem c1_untunnel_inverts (t : TfmIndex) (T : List ℕ)
    (h : WellFormedOver t T) :
    untunnel t = T ∧
    emitList t (0, 0) (t.text_len - 1) = T.reverse.take (t.text_len - 1) := by
  obtain ⟨hlen, -, -, -, -, -, hemit⟩ := h
  have hes : emitList t (0, 0) t.text_len = T.reverse := by
    rw [hlen]
    apply List.ext_getElem
    · rw [emitList_length, List.length_reverse]
    · intro i h1 h2
      rw [emitList_length] at h1
      have hb1 : i < (emitList t (0, 0) T.length).length := by
        rw [emitList_length]; omega
      have hb2 : T.length - 1 - i < T.length := by omega
      rw [List.getElem_reverse]
      calc (emitList t (0, 0) T.length)[i]
          = (emitList t (0, 0) T.length).getD i 0 :=
            (List.getD_eq_getElem _ _ hb1).symm
        _ = T.getD (T.length - 1 - i) 0 := hemit i h1
        _ = T[T.length - 1 - i] := List.getD_eq_getElem _ _ hb2
  refine ⟨?_, ?_⟩
  · rw [untunnel_eq_reverse, hes, List.reverse_reverse]
  · rcases hn : t.text_len with _ | m
    · simp [emitList]
    · have : emitList t (0, 0) m = (emitList t (0, 0) (m + 1)).take m :=
        emitList_take t m (0, 0)
      rw [hn] at hes
      simp only [hn, Nat.succ_sub_one]
      rw [this, hes]

/-- Witness for C1: a two-character text with the untunneled index of its
BWT; the index is well-formed and `untunnel` returns the text. -/
theorem c1_untunnel_inverts_witness :
    WellFormedOver
      (TfmIndex.mk 2 [2, 0, 1] [0, 1, 2] [true, true, true, true]
        [true, true, true, true]) [1, 2] ∧
    untunnel
      (TfmIndex.mk 2 [2, 0, 1] [0, 1, 2] [true, true, true, true]
        [true, true, true, true]) = [1, 2] :=
  ⟨by decide,
    (c1_untunnel_inverts _ [1, 2] (by decide)).1⟩

/-! ## C3 — the compactor of `construct_tfm_index`

The loop removing redundant entries from L, `dout` and `din` mutates the two
bitvectors in place while reading them at the running index `i`; the state
is threaded explicitly and every read/write happens exactly where the C++
does it. -/

structure CompactState where
  newL : List ℕ
  dout : List Bool
  din : List Bool
  p : ℕ
  q : ℕ
deriving DecidableEq

/-- One iteration of the compaction loop at index `i`:
`if (din[i] == 1) { L_buf.push_back(wt_L[i]); dout[p++] = dout[i]; }`
`if (dout[i] == 1) { din[q++] = din[i]; }` — the second test reads the
possibly-just-written `dout`. -/
def compactStep (L0 : List ℕ) (s : CompactState) (i : ℕ) : CompactState :=
  let s1 := if s.din.getD i false = true then
      { s with newL := s.newL ++ [L0.getD i 0],
               dout := s.dout.set s.p (s.dout.getD i false),
               p := s.p + 1 }
    else s
  if s1.dout.getD i false = true then
    { s1 with din := s1.din.set s1.q (s1.din.getD i false), q := s1.q + 1 }
  else s1

/-- The full pass `for (i = 0; i < wt_L.size(); i++)`. -/
def compactLoop (L0 : List ℕ) (dout0 din0 : List Bool) : CompactState :=
  (List.range L0.length).foldl (compactStep L0) ⟨[], dout0, din0, 0, 0⟩

/-- The compactor: the pass, then `dout[p++] = 1; din[q++] = 1;`
`dout.resize(p); din.resize(q);`. -/
def compactTfm (L0 : List ℕ) (dout0 din0 : List Bool) : CompactState :=
  let s := compactLoop L0 dout0 din0
  { newL := s.newL,
    dout := (s.dout.set s.p true).take (s.p + 1),
    din := (s.din.set s.q true).take (s.q + 1),
    p := s.p + 1,
    q := s.q + 1 }

/-- Loop invariant after processing indices `[0, k)`: the cursors count the
ones seen in the original bitvectors, the new L has `p` characters, and the
parts of `dout`/`din` not yet written still carry the original values. -/
def CompactInv (dout0 din0 : List Bool) (k : ℕ) (s : CompactState) : Prop :=
  s.p = rank1 din0 k ∧ s.q = rank1 dout0 k ∧ s.newL.length = s.p ∧
  s.dout.length = dout0.length ∧ s.din.length = din0.length ∧
  (∀ idx, s.p ≤ idx → s.dout.getD idx false = dout0.getD idx false) ∧
  (∀ idx, s.q ≤ idx → s.din.getD idx false = din0.getD idx false)

theorem compactStep_inv (L0 : List ℕ) (dout0 din0 : List Bool) (k : ℕ)
    (s : CompactState) (h : CompactInv dout0 din0 k s) :
    CompactInv dout0 din0 (k + 1) (compactStep L0 s k) := by
  obtain ⟨hp, hq, hL, hdo, hdi, hdoeq, hdieq⟩ := h
  have hpk : s.p ≤ k := hp ▸ rank1_le din0 k
  have hqk : s.q ≤ k := hq ▸ rank1_le dout0 k
  have hdk : s.din.getD k false = din0.getD k false := hdieq k hqk
  have hok : s.dout.getD k false = dout0.getD k false := hdoeq k hpk
  have hset2 : (s.dout.set s.p (dout0.getD k false)).getD k false
      = dout0.getD k false := by
    rw [getD_set]; split
    · rfl
    · exact hok
  have hr1 := rank1_succ din0 k
  have hr2 := rank1_succ dout0 k
  simp only [compactStep]
  rw [hdk, hok]
  by_cases hb1 : din0.getD k false = true
  · rw [if_pos hb1]
    dsimp only
    rw [hset2]
    rw [hb1] at hr1; simp at hr1
    by_cases hb2 : dout0.getD k false = true
    · rw [if_pos hb2]
      rw [hb2] at hr2; simp at hr2
      unfold CompactInv
      dsimp only
      refine ⟨by omega, by omega, by simp [hL], by rw [length_set_eq, hdo],
        by rw [length_set_eq, hdi], ?_, ?_⟩
      · intro idx hidx
        rw [getD_set]
        split
        · omega
        · exact hdoeq idx (by omega)
      · intro idx hidx
        rw [getD_set]
        split
        · omega
        · exact hdieq idx (by omega)
    · rw [if_neg hb2]
      rw [Bool.not_eq_true] at hb2
      rw [hb2] at hr2; simp at hr2
      unfold CompactInv
      dsimp only
      refine ⟨by omega, by omega, by simp [hL], by rw [length_set_eq, hdo],
        hdi, ?_, ?_⟩
      · intro idx hidx
        rw [getD_set]
        split
        · omega
        · exact hdoeq idx (by omega)
      · intro idx hidx
        exact hdieq idx (by omega)
  · rw [if_neg hb1]
    rw [Bool.not_eq_true] at hb1
    rw [hb1] at hr1; simp at hr1
    rw [hok]
    by_cases hb2 : dout0.getD k false = true
    · rw [if_pos hb2]
      rw [hb2] at hr2; simp at hr2
      unfold CompactInv
      dsimp only
      refine ⟨by omega, by omega, by omega, hdo, by rw [length_set_eq, hdi],
        ?_, ?_⟩
      · intro idx hidx
        exact hdoeq idx (by omega)
      · intro idx hidx
        rw [getD_set]
        split
        · omega
        · exact hdieq idx (by omega)
    · rw [if_neg hb2]
      rw [Bool.not_eq_true] at hb2
      rw [hb2] at hr2; simp at hr2
      exact ⟨by omega, by omega, by omega, hdo, hdi,
        fun idx hidx => hdoeq idx (by omega),
        fun idx hidx => hdieq idx (by omega)⟩

theorem compactLoop_inv (L0 : List ℕ) (dout0 din0 : List Bool) :
    CompactInv dout0 din0 L0.length (compactLoop L0 dout0 din0) := by
  suffices h : ∀ k, CompactInv dout0 din0 k
      ((List.range k).foldl (compactStep L0) ⟨[], dout0, din0, 0, 0⟩) from
    h L0.length
  intro k
  induction k with
  | zero =>
    exact ⟨(rank1_zero din0).symm, (rank1_zero dout0).symm, rfl, rfl, rfl,
      fun _ _ => rfl, fun _ _ => rfl⟩
  | succ k ih =>
    rw [List.range_succ, List.foldl_append, List.foldl_cons, List.foldl_nil]
    exact compactStep_inv L0 dout0 din0 k _ ih

/-- Counterexample to claim C3 as stated: for `L = [0]` with
`dout = din = 11` the compactor finishes with `p = q = 2` while the new L
has length `1`, and the popcount of the full original `din` is `2`; so
"on completion `p = q = m` where `m` is the new L's length" and
"the new L's length equals `popcount_original(din)`" are both false. -/
theorem c3_compactor_counterexample :
    (compactTfm [0] [true, true] [true, true]).p = 2 ∧
    (compactTfm [0] [true, true] [true, true]).q = 2 ∧
    (compactTfm [0] [true, true] [true, true]).newL.length = 1 ∧
    rank1 [true, true] 2 = 2 ∧
    (compactTfm [0] [true, true] [true, true]).p ≠
      (compactTfm [0] [true, true] [true, true]).newL.length := by
  refine ⟨by decide, by decide, by decide, by decide, by decide⟩

/-- Claim C3 (amended): the compactor is the stated single pass; at the end
of the pass (before the sentinel writes) `p = q = m` where `m` is the new
L's length and `m` equals the popcount of the original `din` over the data
positions `[0, m₀)`; the sentinel writes then make `p = q = m + 1`, which is
the length the truncation gives the new `dout` and `din`. -/
theorem c3_compactor_amended (L0 : List ℕ) (dout0 din0 : List Bool)
    (hdo : dout0.length = L0.length + 1) (hdi : din0.length = L0.length + 1)
    (hpc : rank1 din0 L0.length = rank1 dout0 L0.length) :
    (compactLoop L0 dout0 din0).p = (compactLoop L0 dout0 din0).newL.length ∧
    (compactLoop L0 dout0 din0).q = (compactLoop L0 dout0 din0).newL.length ∧
    (compactTfm L0 dout0 din0).newL.length = rank1 din0 L0.length ∧
    (compactTfm L0 dout0 din0).p =
      (compactTfm L0 dout0 din0).newL.length + 1 ∧
    (compactTfm L0 dout0 din0).q =
      (compactTfm L0 dout0 din0).newL.length + 1 ∧
    (compactTfm L0 dout0 din0).dout.length =
      (compactTfm L0 dout0 din0).newL.length + 1 ∧
    (compactTfm L0 dout0 din0).din.length =
      (compactTfm L0 dout0 din0).newL.length + 1 := by
  obtain ⟨hp, hq, hL, hdol, hdil, -, -⟩ := compactLoop_inv L0 dout0 din0
  have hple : (compactLoop L0 dout0 din0).p ≤ L0.length :=
    hp ▸ rank1_le din0 L0.length
  have hqle : (compactLoop L0 dout0 din0).q ≤ L0.length :=
    hq ▸ rank1_le dout0 L0.length
  simp only [compactTfm]
  refine ⟨by omega, by omega, by omega, by omega, by omega, ?_, ?_⟩
  · rw [List.length_take, length_set_eq]
    omega
  · rw [List.length_take, length_set_eq]
    omega

/-- Witness for C3 (amended) at a concrete fully-marked input. -/
theorem c3_compactor_amended_witness :
    (compactTfm [3, 1] [true, true, true] [true, true, true]).newL.length =
      rank1 [true, true, true] 2 ∧
    (compactTfm [3, 1] [true, true, true] [true, true, true]).p =
      (compactTfm [3, 1] [true, true, true] [true, true, true]).newL.length
        + 1 := by
  have h := c3_compactor_amended [3, 1] [true, true, true] [true, true, true]
    (by decide) (by decide) (by decide)
  exact ⟨h.2.2.1, h.2.2.2.1⟩

/-! ## `load_bitvector` (`tfm_index.hpp` / `tfm_index_invert.cpp`)

The file is a byte list read through an explicit cursor; `fread` of one
byte returns the item count (`0` at end of file, never negative) and leaves
the buffer untouched when nothing was read.  The C++ `return` in the middle
of both loops is modelled with a `done` flag that freezes the state. -/

structure LoadState where
  B : List Bool
  cnt : ℕ
  buffer : ℕ
  fpos : ℕ
  err : Bool
  done : Bool

/-- `fread(&buffer, sizeof(uint8_t), 1, fin)`: item count, new buffer, new
file position. -/
def freadByte (file : List ℕ) (fpos buffer : ℕ) : ℤ × ℕ × ℕ :=
  if fpos < file.length then ((1 : ℤ), file.getD fpos 0, fpos + 1)
  else ((0 : ℤ), buffer, fpos)

/-- Inner loop body at `j`: `bool bit = 1 & (buffer >> (7 - j));`
`B[cnt++] = bit; if (cnt == n) return;`. -/
def bitStep (n : ℕ) (s : LoadState) (j : ℕ) : LoadState :=
  if s.done then s
  else
    { s with B := s.B.set s.cnt (Nat.testBit s.buffer (7 - j)),
             cnt := s.cnt + 1,
             done := decide (s.cnt + 1 = n) }

/-- The state right after `fread`: new buffer and file position, and the
error flag or-ed with the (unsatisfiable) `e < 0` test. -/
def afterRead (file : List ℕ) (s : LoadState) : LoadState :=
  { s with buffer := (freadByte file s.fpos s.buffer).2.1,
           fpos := (freadByte file s.fpos s.buffer).2.2,
           err := s.err || decide ((freadByte file s.fpos s.buffer).1 < 0) }

/-- Outer loop body: one `fread` with the `e < 0` error check, then the
eight bit writes. -/
def byteStep (file : List ℕ) (n : ℕ) (s : LoadState) : LoadState :=
  if s.done then s
  else (List.range 8).foldl (bitStep n) (afterRead file s)

/-- `load_bitvector(B, filename, n)` — the outer loop runs `⌈n/8⌉` times on
the pre-allocated bit list `B0`. -/
def load_bitvector (B0 : List Bool) (file : List ℕ) (n : ℕ) : LoadState :=
  (List.range ((n + 7) / 8)).foldl (fun s _ => byteStep file n s)
    ⟨B0, 0, 0, 0, false, false⟩

/-- The byte the stale-or-fresh read buffer holds after byte `k` has been
processed: the real byte while the file lasts, afterwards its last byte
(`0` for an empty file). -/
def effByte (file : List ℕ) (k : ℕ) : ℕ :=
  if k < file.length then file.getD k 0
  else if file.length = 0 then 0
  else file.getD (file.length - 1) 0

theorem bitStep_err (n : ℕ) (s : LoadState) (j : ℕ) :
    (bitStep n s j).err = s.err := by
  unfold bitStep; split <;> rfl

theorem foldl_bitStep_err (n : ℕ) (l : List ℕ) :
    ∀ s : LoadState, (l.foldl (bitStep n) s).err = s.err := by
  induction l with
  | nil => intro s; rfl
  | cons j l ih => intro s; rw [List.foldl_cons, ih, bitStep_err]

theorem byteStep_err (file : List ℕ) (n : ℕ) (s : LoadState) :
    (byteStep file n s).err = s.err := by
  unfold byteStep
  split
  · rfl
  · rw [foldl_bitStep_err]
    show (s.err || decide ((freadByte file s.fpos s.buffer).1 < 0)) = s.err
    have : ¬ (freadByte file s.fpos s.buffer).1 < 0 := by
      unfold freadByte; split <;> simp
    rw [decide_eq_false this, Bool.or_false]

/-- The `e < 0` test can never fire: the error branch is unreachable. -/
theorem load_bitvector_err (B0 : List Bool) (file : List ℕ) (n : ℕ) :
    (load_bitvector B0 file n).err = false := by
  unfold load_bitvector
  suffices h : ∀ (l : List ℕ) (s : LoadState), s.err = false →
      (l.foldl (fun s _ => byteStep file n s) s).err = false by
    exact h _ _ rfl
  intro l
  induction l with
  | nil => intro s hs; exact hs
  | cons x l ih =>
    intro s hs
    rw [List.foldl_cons]
    exact ih _ (by rw [byteStep_err]; exact hs)

/-- Behaviour of the eight-bit inner loop from a live state: it writes the
buffer's bits MSB-first at `cnt, cnt+1, …`, stopping at `n`, and touches
nothing else. -/
theorem innerFold_spec (n : ℕ) (s : LoadState) (hd : s.done = false)
    (hc : s.cnt < n) (hB : n ≤ s.B.length) :
    ∀ m : ℕ,
      (((List.range m).foldl (bitStep n) s).buffer = s.buffer ∧
       ((List.range m).foldl (bitStep n) s).fpos = s.fpos ∧
       ((List.range m).foldl (bitStep n) s).B.length = s.B.length ∧
       ((List.range m).foldl (bitStep n) s).cnt = min (s.cnt + m) n ∧
       ((List.range m).foldl (bitStep n) s).done = decide (n ≤ s.cnt + m)) ∧
      (∀ j, j < m → s.cnt + j < n →
        ((List.range m).foldl (bitStep n) s).B.getD (s.cnt + j) false =
          Nat.testBit s.buffer (7 - j)) ∧
      (∀ p, p < s.cnt ∨ s.cnt + m ≤ p ∨ n ≤ p →
        ((List.range m).foldl (bitStep n) s).B.getD p false =
          s.B.getD p false) := by
  intro m
  induction m with
  | zero =>
    refine ⟨⟨by simp only [List.range_zero, List.foldl_nil],
      by simp only [List.range_zero, List.foldl_nil],
      by simp only [List.range_zero, List.foldl_nil],
      by simp only [List.range_zero, List.foldl_nil]; omega, ?_⟩, ?_, ?_⟩
    · simp only [List.range_zero, List.foldl_nil]
      rw [hd]
      have : ¬ n ≤ s.cnt + 0 := by omega
      rw [decide_eq_false this]
    · intro j hj _; omega
    · intro p _
      simp only [List.range_zero, List.foldl_nil]
  | succ m ih =>
    obtain ⟨⟨hbuf, hfp, hlen, hcnt, hdn⟩, hbits, hpres⟩ := ih
    rw [List.range_succ, List.foldl_append, List.foldl_cons, List.foldl_nil]
    by_cases hnm : n ≤ s.cnt + m
    · have hdn' : ((List.range m).foldl (bitStep n) s).done = true := by
        rw [hdn, decide_eq_true_eq]; omega
      rw [bitStep, if_pos hdn']
      refine ⟨⟨hbuf, hfp, hlen, by omega, ?_⟩, ?_, ?_⟩
      · rw [hdn]
        have h1 : decide (n ≤ s.cnt + m) = true := by
          rw [decide_eq_true_eq]; omega
        have h2 : decide (n ≤ s.cnt + (m + 1)) = true := by
          rw [decide_eq_true_eq]; omega
        rw [h1, h2]
      · intro j hj hjn
        rcases Nat.lt_succ_iff_lt_or_eq.mp hj with h | h
        · exact hbits j h hjn
        · omega
      · intro p hp
        exact hpres p (by omega)
    · have hdn' : ((List.range m).foldl (bitStep n) s).done = false := by
        rw [hdn, decide_eq_false_iff_not]; exact hnm
      rw [bitStep, if_neg (by rw [hdn']; exact Bool.false_ne_true)]
      have hcm : ((List.range m).foldl (bitStep n) s).cnt = s.cnt + m := by
        rw [hcnt]; omega
      refine ⟨⟨hbuf, hfp, by rw [length_set_eq, hlen], ?_, ?_⟩, ?_, ?_⟩
      · dsimp only
        rw [hcm]; omega
      · dsimp only
        rw [hcm]
        simp only [decide_eq_decide]
        omega
      · intro j hj hjn
        dsimp only
        rcases Nat.lt_succ_iff_lt_or_eq.mp hj with h | h
        · rw [getD_set]
          rw [hcm]
          rw [if_neg (by omega)]
          exact hbits j h hjn
        · subst h
          rw [getD_set, hcm, hbuf,
            if_pos ⟨rfl, by rw [hlen]; omega⟩]
      · intro p hp
        dsimp only
        rw [getD_set, hcm, if_neg (by omega)]
        exact hpres p (by omega)

theorem effByte_stable (file : List ℕ) (k : ℕ) (hlen : file.length ≤ k) :
    (if k = 0 then 0 else effByte file (k - 1)) = effByte file k := by
  by_cases h0 : k = 0
  · subst h0
    have hl : file.length = 0 := by omega
    simp [effByte, hl]
  · rw [if_neg h0]
    unfold effByte
    by_cases hl0 : file.length = 0
    · simp [hl0]
    · have hknlt : ¬ k < file.length := by omega
      rw [if_neg hknlt, if_neg hl0]
      by_cases hk1 : k - 1 < file.length
      · have he : k - 1 = file.length - 1 := by omega
        rw [if_pos hk1, he]
      · rw [if_neg hk1]

/-- Invariant of the outer loop after `k` bytes have been processed. -/
def OuterInv (B0 : List Bool) (file : List ℕ) (n k : ℕ) (s : LoadState) :
    Prop :=
  s.B.length = B0.length ∧
  s.cnt = min (8 * k) n ∧
  s.done = decide (0 < k ∧ n ≤ 8 * k) ∧
  s.fpos = min k file.length ∧
  s.buffer = (if k = 0 then 0 else effByte file (k - 1)) ∧
  (∀ idx, idx < min (8 * k) n →
    s.B.getD idx false = Nat.testBit (effByte file (idx / 8)) (7 - idx % 8)) ∧
  (∀ idx, min (8 * k) n ≤ idx → s.B.getD idx false = B0.getD idx false)

theorem outer_step (B0 : List Bool) (file : List ℕ) (n k : ℕ)
    (hB0 : B0.length = n) (hk : 8 * k < n) (s : LoadState)
    (h : OuterInv B0 file n k s) :
    OuterInv B0 file n (k + 1) (byteStep file n s) := by
  obtain ⟨hl, hc, hd, hf, hb, hbits, hpres⟩ := h
  have hdone : s.done = false := by
    rw [hd, decide_eq_false_iff_not]
    omega
  rw [byteStep, if_neg (by rw [hdone]; exact Bool.false_ne_true)]
  have hbuf1 : (afterRead file s).buffer = effByte file k := by
    show (freadByte file s.fpos s.buffer).2.1 = effByte file k
    unfold freadByte
    by_cases hkl : k < file.length
    · have h1 : s.fpos < file.length := by rw [hf]; omega
      rw [if_pos h1, hf]
      have hmin : min k file.length = k := by omega
      rw [hmin]
      unfold effByte
      rw [if_pos hkl]
    · have h1 : ¬ s.fpos < file.length := by rw [hf]; omega
      rw [if_neg h1]
      show s.buffer = effByte file k
      rw [hb]
      exact effByte_stable file k (by omega)
  have hfp1 : (afterRead file s).fpos = min (k + 1) file.length := by
    show (freadByte file s.fpos s.buffer).2.2 = min (k + 1) file.length
    unfold freadByte
    by_cases hkl : k < file.length
    · have h1 : s.fpos < file.length := by rw [hf]; omega
      rw [if_pos h1, hf]
      show min k file.length + 1 = min (k + 1) file.length
      omega
    · have h1 : ¬ s.fpos < file.length := by rw [hf]; omega
      rw [if_neg h1, hf]
      show min k file.length = min (k + 1) file.length
      omega
  have hs1 : (afterRead file s).done = false := hdone
  have hc1 : (afterRead file s).cnt = 8 * k := by
    show s.cnt = 8 * k
    rw [hc]; omega
  have hln1 : (afterRead file s).B.length = n := by
    show s.B.length = n
    rw [hl, hB0]
  have hBs : (afterRead file s).B = s.B := rfl
  obtain ⟨⟨ibuf, ifp, ilen, icnt, idone⟩, ibits, ipres⟩ :=
    innerFold_spec n (afterRead file s) hs1 (by rw [hc1]; omega)
      (by rw [hln1]) 8
  refine ⟨by rw [ilen, hln1, hB0], ?_, ?_, ?_, ?_, ?_, ?_⟩
  · rw [icnt, hc1]
    omega
  · rw [idone, hc1]
    simp only [decide_eq_decide]
    omega
  · rw [ifp, hfp1]
  · rw [ibuf, hbuf1]
    simp
  · intro idx hidx
    by_cases hlow : idx < min (8 * k) n
    · rw [ipres idx (by rw [hc1]; omega), hBs]
      exact hbits idx hlow
    · have hge : 8 * k ≤ idx := by omega
      have hjlt : idx - 8 * k < 8 := by omega
      have := ibits (idx - 8 * k) hjlt (by rw [hc1]; omega)
      rw [hc1] at this
      have hidx8 : 8 * k + (idx - 8 * k) = idx := by omega
      rw [hidx8] at this
      rw [this, hbuf1]
      have hdiv : idx / 8 = k := by omega
      have hmod : idx % 8 = idx - 8 * k := by omega
      rw [hdiv, hmod]
  · intro idx hidx
    rw [ipres idx (by rw [hc1]; omega), hBs]
    exact hpres idx (by omega)

/-- Full characterization of `load_bitvector` on a pre-allocated `n`-bit
list: every loaded bit `idx` is bit `7 − idx mod 8` (MSB-first) of the byte
the buffer held while processing byte index `idx / 8` — the real file byte
while the file lasts, the stale last byte afterwards. -/
theorem load_bitvector_spec (B0 : List Bool) (file : List ℕ) (n : ℕ)
    (hB0 : B0.length = n) :
    (load_bitvector B0 file n).B.length = n ∧
    ∀ idx, idx < n →
      (load_bitvector B0 file n).B.getD idx false =
        Nat.testBit (effByte file (idx / 8)) (7 - idx % 8) := by
  suffices h : ∀ k, k ≤ (n + 7) / 8 → OuterInv B0 file n k
      ((List.range k).foldl (fun s _ => byteStep file n s)
        ⟨B0, 0, 0, 0, false, false⟩) by
    have h2 := h ((n + 7) / 8) le_rfl
    obtain ⟨hl, hc, hd, hf, hb, hbits, hpres⟩ := h2
    constructor
    · show ((List.range ((n + 7) / 8)).foldl (fun s _ => byteStep file n s)
        ⟨B0, 0, 0, 0, false, false⟩).B.length = n
      rw [hl, hB0]
    · intro idx hidx
      show ((List.range ((n + 7) / 8)).foldl (fun s _ => byteStep file n s)
        ⟨B0, 0, 0, 0, false, false⟩).B.getD idx false = _
      exact hbits idx (by omega)
  intro k
  induction k with
  | zero =>
    intro _
    refine ⟨rfl, by simp, by simp, by simp, rfl, ?_, ?_⟩
    · intro idx hidx
      omega
    · intro idx _
      rfl
  | succ k ih =>
    intro hk1
    rw [List.range_succ, List.foldl_append, List.foldl_cons, List.foldl_nil]
    exact outer_step B0 file n k hB0 (by omega) _ (ih (by omega))

/-- Claim C10: the `e < 0` test on `fread`'s return value can never fire,
so no read failure is ever reported, and for a file shorter than the
expected `⌈n/8⌉` bytes the loader completes and fills every position past
the file's bits with bits re-read from the last buffer value (the last
file byte, or `0` for an empty file). -/
theorem c10_load_bitvector_silent :
    (∀ (B0 : List Bool) (file : List ℕ) (n : ℕ),
      (load_bitvector B0 file n).err = false) ∧
    (∀ (B0 : List Bool) (file : List ℕ) (n : ℕ), B0.length = n →
      file.length < (n + 7) / 8 →
      ∀ idx, 8 * file.length ≤ idx → idx < n →
        (load_bitvector B0 file n).B.getD idx false =
          Nat.testBit
            (if file.length = 0 then 0 else file.getD (file.length - 1) 0)
            (7 - idx % 8)) := by
  refine ⟨load_bitvector_err, ?_⟩
  intro B0 file n hB0 _ idx hfile hidx
  rw [(load_bitvector_spec B0 file n hB0).2 idx hidx]
  have hge : ¬ idx / 8 < file.length := by omega
  unfold effByte
  rw [if_neg hge]

/-- Witness for C10: a one-byte file `[0xA0]` loaded as 16 bits; position 8
is refilled from the stale buffer, reproducing bit 7 of the last byte, and
no error is reported. -/
theorem c10_load_bitvector_silent_witness :
    (load_bitvector (List.replicate 16 false) [160] 16).err = false ∧
    (load_bitvector (List.replicate 16 false) [160] 16).B.getD 8 false =
      Nat.testBit 160 7 := by
  constructor
  · exact c10_load_bitvector_silent.1 (List.replicate 16 false) [160] 16
  · have h := c10_load_bitvector_silent.2 (List.replicate 16 false) [160] 16
      (by simp) (by decide) 8 (by decide) (by decide)
    simpa using h

/-! ## `symbol_frequencies` (byte overload, `tfm_index.hpp`)

`C = std::vector(255, 0);` then `C[L[i] + 1] += 1` for every position, then
prefix sums `C[i + 1] += C[i]` for `i ∈ [0, C.size() − 1)`. -/

/-- The tally loop `for (i = 0; i < L.size(); i++) C[L[i] + 1] += 1;`. -/
def tallyFold (L C : List ℕ) : List ℕ :=
  L.foldl (fun C x => C.set (x + 1) (C.getD (x + 1) 0 + 1)) C

/-- The prefix-sum loop `C[i + 1] += C[i]` for `i ∈ [0, m)`. -/
def prefixSumFold (C : List ℕ) (m : ℕ) : List ℕ :=
  (List.range m).foldl
    (fun C i => C.set (i + 1) (C.getD (i + 1) 0 + C.getD i 0)) C

/-- The byte overload of `symbol_frequencies`: a fixed 255-entry vector. -/
def symbol_frequencies8 (L : List ℕ) : List ℕ :=
  prefixSumFold (tallyFold L (List.replicate 255 0)) 254

/-- The same function with the vector writes bounds-checked: `C[L[i] + 1]`
on a `std::vector` of size 255 is out of bounds as soon as `L[i] + 1 ≥ 255`. -/
def tallyChk : List ℕ → List ℕ → Option (List ℕ)
  | [], C => some C
  | x :: xs, C =>
      if x + 1 < C.length then
        tallyChk xs (C.set (x + 1) (C.getD (x + 1) 0 + 1))
      else none

def symbol_frequencies8Chk (L : List ℕ) : Option (List ℕ) :=
  (tallyChk L (List.replicate 255 0)).map (fun C => prefixSumFold C 254)

/-- The alphabet size `sigma` of the wavelet tree over L: the number of
distinct symbols. -/
def sigmaOf (L : List ℕ) : ℕ := L.dedup.length

theorem tallyFold_length (L : List ℕ) :
    ∀ C : List ℕ, (tallyFold L C).length = C.length := by
  induction L with
  | nil => intro C; rfl
  | cons x xs ih =>
    intro C
    show (tallyFold xs _).length = _
    rw [ih, length_set_eq]

theorem tallyFold_getD (L : List ℕ) :
    ∀ C : List ℕ, (∀ x ∈ L, x + 1 < C.length) → ∀ j,
      (tallyFold L C).getD j 0 =
        C.getD j 0 + (L.filter (fun x => x + 1 = j)).length := by
  induction L with
  | nil => intro C _ j; simp [tallyFold]
  | cons x xs ih =>
    intro C hC j
    have hx : x + 1 < C.length := hC x (List.mem_cons_self x xs)
    have hxs : ∀ y ∈ xs, y + 1 < (C.set (x + 1) (C.getD (x + 1) 0 + 1)).length := by
      intro y hy
      rw [length_set_eq]
      exact hC y (List.mem_cons_of_mem x hy)
    show (tallyFold xs _).getD j 0 = _
    rw [ih _ hxs j, getD_set, List.filter_cons]
    by_cases hj : x + 1 = j
    · subst hj
      rw [if_pos ⟨rfl, hx⟩, if_pos (by simp)]
      simp only [List.length_cons]
      omega
    · rw [if_neg (by intro hc; exact hj hc.1), if_neg (by simpa using hj)]

theorem prefixSumFold_length (m : ℕ) :
    ∀ C : List ℕ, (prefixSumFold C m).length = C.length := by
  induction m with
  | zero => intro C; rfl
  | succ m ih =>
    intro C
    unfold prefixSumFold at ih ⊢
    rw [List.range_succ, List.foldl_append, List.foldl_cons, List.foldl_nil,
      length_set_eq, ih]

/-- Partial sums of the entries of `C` up to index `k`. -/
def sumTo (C : List ℕ) : ℕ → ℕ
  | 0 => C.getD 0 0
  | k + 1 => sumTo C k + C.getD (k + 1) 0

theorem prefixSumFold_getD (C1 : List ℕ) :
    ∀ m, m < C1.length →
      (∀ j, j ≤ m → (prefixSumFold C1 m).getD j 0 = sumTo C1 j) ∧
      (∀ j, m < j → (prefixSumFold C1 m).getD j 0 = C1.getD j 0) := by
  intro m
  induction m with
  | zero =>
    intro _
    refine ⟨?_, ?_⟩
    · intro j hj
      have : j = 0 := by omega
      subst this
      rfl
    · intro j _
      rfl
  | succ m ih =>
    intro hm1
    obtain ⟨ihle, ihgt⟩ := ih (by omega)
    have hstep : prefixSumFold C1 (m + 1) =
        (prefixSumFold C1 m).set (m + 1)
          ((prefixSumFold C1 m).getD (m + 1) 0 +
            (prefixSumFold C1 m).getD m 0) := by
      unfold prefixSumFold
      rw [List.range_succ, List.foldl_append, List.foldl_cons, List.foldl_nil]
    have hlen : (prefixSumFold C1 m).length = C1.length :=
      prefixSumFold_length m C1
    refine ⟨?_, ?_⟩
    · intro j hj
      rcases Nat.lt_succ_iff_lt_or_eq.mp (Nat.lt_succ_of_le hj) with h | h
      · rw [hstep, getD_set, if_neg (by omega)]
        exact ihle j (by omega)
      · subst h
        rw [hstep, getD_set, if_pos ⟨rfl, by omega⟩,
          ihgt (m + 1) (by omega), ihle m (by omega)]
        show C1.getD (m + 1) 0 + sumTo C1 m = sumTo C1 (m + 1)
        rw [sumTo]
        omega
    · intro j hj
      rw [hstep, getD_set, if_neg (by omega)]
      exact ihgt j (by omega)

theorem filter_le_succ (c : ℕ) (L : List ℕ) :
    (L.filter (fun x => x + 1 ≤ c + 1)).length =
      (L.filter (fun x => x + 1 ≤ c)).length +
        (L.filter (fun x => x + 1 = c + 1)).length := by
  induction L with
  | nil => rfl
  | cons x xs ih =>
    by_cases h1 : x + 1 ≤ c
    · have h2 : ¬ x + 1 = c + 1 := by omega
      have h3 : x + 1 ≤ c + 1 := by omega
      rw [List.filter_cons_of_pos (by simpa using h3),
          List.filter_cons_of_pos (by simpa using h1),
          List.filter_cons_of_neg (by simpa using h2)]
      simp only [List.length_cons]
      omega
    · by_cases h2 : x + 1 = c + 1
      · have h3 : x + 1 ≤ c + 1 := by omega
        rw [List.filter_cons_of_pos (by simpa using h3),
            List.filter_cons_of_neg (by simpa using h1),
            List.filter_cons_of_pos (by simpa using h2)]
        simp only [List.length_cons]
        omega
      · have h3 : ¬ x + 1 ≤ c + 1 := by omega
        rw [List.filter_cons_of_neg (by simpa using h3),
            List.filter_cons_of_neg (by simpa using h1),
            List.filter_cons_of_neg (by simpa using h2)]
        omega

theorem getD_replicate_zero (m j : ℕ) :
    (List.replicate m (0 : ℕ)).getD j 0 = 0 := by
  induction m generalizing j with
  | zero => simp [List.getD]
  | succ m ih =>
    cases j with
    | zero => rfl
    | succ j => simp only [List.replicate, List.getD_cons_succ]; exact ih j

theorem filter_none_le_zero (L : List ℕ) :
    (L.filter (fun x => x + 1 ≤ 0)).length = 0 := by
  induction L with
  | nil => rfl
  | cons x xs ih =>
    rw [List.filter_cons_of_neg (by simp)]
    exact ih

theorem filter_none_eq_zero (L : List ℕ) :
    (L.filter (fun x => x + 1 = 0)).length = 0 := by
  induction L with
  | nil => rfl
  | cons x xs ih =>
    rw [List.filter_cons_of_neg (by simp)]
    exact ih

theorem sumTo_tally (L : List ℕ) (hL : ∀ x ∈ L, x + 1 < 255) :
    ∀ c, (sumTo (tallyFold L (List.replicate 255 0)) c =
      (L.filter (fun x => x + 1 ≤ c)).length) := by
  have hrep : ∀ x ∈ L, x + 1 < (List.replicate 255 (0 : ℕ)).length := by
    intro x hx
    rw [List.length_replicate]
    exact hL x hx
  have hget := tallyFold_getD L (List.replicate 255 0) hrep
  intro c
  induction c with
  | zero =>
    show (tallyFold L (List.replicate 255 0)).getD 0 0 = _
    rw [hget 0, getD_replicate_zero, filter_none_le_zero]
    have := filter_none_eq_zero L
    omega
  | succ c ih =>
    show sumTo _ c + (tallyFold L (List.replicate 255 0)).getD (c + 1) 0 = _
    rw [ih, hget (c + 1), getD_replicate_zero, filter_le_succ c L]
    omega

theorem tallyChk_some (L : List ℕ) :
    ∀ C : List ℕ, (∀ x ∈ L, x + 1 < C.length) →
      tallyChk L C = some (tallyFold L C) := by
  induction L with
  | nil => intro C _; rfl
  | cons x xs ih =>
    intro C hC
    rw [tallyChk, if_pos (hC x (List.mem_cons_self x xs))]
    have hys : ∀ y ∈ xs, y + 1 < (C.set (x + 1) (C.getD (x + 1) 0 + 1)).length := by
      intro y hy
      rw [length_set_eq]
      exact hC y (List.mem_cons_of_mem x hy)
    rw [ih _ hys]
    rfl

theorem tallyChk_none (L : List ℕ) :
    ∀ C : List ℕ, (∃ x ∈ L, ¬ x + 1 < C.length) → tallyChk L C = none := by
  induction L with
  | nil =>
    intro C h
    obtain ⟨x, hx, -⟩ := h
    simp at hx
  | cons y ys ih =>
    intro C h
    obtain ⟨x, hx, hxb⟩ := h
    by_cases hy : y + 1 < C.length
    · rw [tallyChk, if_pos hy]
      apply ih
      refine ⟨x, ?_, by rw [length_set_eq]; exact hxb⟩
      rcases List.mem_cons.mp hx with h | h
      · subst h; exact absurd hy hxb
      · exact h
    · rw [tallyChk, if_neg hy]

/-- Claim C9: the byte overload of `symbol_frequencies` allocates 255
entries and writes `C[L[i] + 1]`; with every symbol at most 253 all writes
are in bounds (and the checked run agrees with the unchecked model), while
any symbol 254 or 255 makes the write `C[L[i] + 1]` index past the end of
the 255-entry vector. -/
theorem c9_symbol_frequencies_bounds :
    (∀ L : List ℕ, (∀ x ∈ L, x ≤ 253) →
      symbol_frequencies8Chk L = some (symbol_frequencies8 L)) ∧
    (∀ (L : List ℕ) (x : ℕ), x ∈ L → 254 ≤ x →
      symbol_frequencies8Chk L = none) := by
  constructor
  · intro L hL
    unfold symbol_frequencies8Chk symbol_frequencies8
    rw [tallyChk_some L _ (by
      intro x hx
      rw [List.length_replicate]
      have := hL x hx
      omega)]
    rfl
  · intro L x hx hge
    unfold symbol_frequencies8Chk
    rw [tallyChk_none L _ ⟨x, hx, by rw [List.length_replicate]; omega⟩]
    rfl

/-- Witness for C9: all writes in bounds for `[1, 2]`; out of bounds for
`[254]`. -/
theorem c9_symbol_frequencies_bounds_witness :
    symbol_frequencies8Chk [1, 2] = some (symbol_frequencies8 [1, 2]) ∧
    symbol_frequencies8Chk [254] = none :=
  ⟨c9_symbol_frequencies_bounds.1 [1, 2] (by decide),
   c9_symbol_frequencies_bounds.2 [254] 254 (by decide) (by decide)⟩

/-- Counterexample to claim C5 as stated: for `L = [0]` the loaded C has
the fixed length 255, not `σ + 1 = 2`. -/
theorem c5_pfwg_load_counterexample :
    (symbol_frequencies8 [0]).length = 255 ∧
    sigmaOf [0] + 1 = 2 ∧
    (symbol_frequencies8 [0]).length ≠ sigmaOf [0] + 1 := by
  have hlen : (symbol_frequencies8 [0]).length = 255 := by
    unfold symbol_frequencies8
    rw [prefixSumFold_length, tallyFold_length, List.length_replicate]
  refine ⟨hlen, by decide, by rw [hlen]; decide⟩

/-- Claim C5 (amended): the PFWG load path loads `din`/`dout` as packed
bitvectors with MSB-first bit order (bit `j` of byte `b` becomes bit
`8b + j`, trailing bits ignored), and recomputes C from L as a vector of
fixed length 255 (not `σ + 1`) with `C[c]` = number of positions of L
holding a symbol strictly below `c`, for every `c < 255`, under the byte
overload's precondition that symbols stay at most 253. -/
theorem c5_pfwg_load_amended :
    (∀ (B0 : List Bool) (file : List ℕ) (n : ℕ), B0.length = n →
      n ≤ 8 * file.length →
      ∀ idx, idx < n →
        (load_bitvector B0 file n).B.getD idx false =
          Nat.testBit (file.getD (idx / 8) 0) (7 - idx % 8)) ∧
    (∀ L : List ℕ, (symbol_frequencies8 L).length = 255) ∧
    (∀ L : List ℕ, (∀ x ∈ L, x ≤ 253) → ∀ c, c < 255 →
      (symbol_frequencies8 L).getD c 0 =
        (L.filter (fun x => x < c)).length) := by
  refine ⟨?_, ?_, ?_⟩
  · intro B0 file n hB0 hn idx hidx
    rw [(load_bitvector_spec B0 file n hB0).2 idx hidx]
    have hlt : idx / 8 < file.length := by omega
    unfold effByte
    rw [if_pos hlt]
  · intro L
    unfold symbol_frequencies8
    rw [prefixSumFold_length, tallyFold_length, List.length_replicate]
  · intro L hL c hc
    have hL' : ∀ x ∈ L, x + 1 < 255 := by
      intro x hx
      have := hL x hx
      omega
    have hlen : (tallyFold L (List.replicate 255 0)).length = 255 := by
      rw [tallyFold_length, List.length_replicate]
    unfold symbol_frequencies8
    rw [(prefixSumFold_getD _ 254 (by rw [hlen]; omega)).1 c (by omega),
      sumTo_tally L hL' c]
    have hpred : (L.filter (fun x => x + 1 ≤ c)) =
        (L.filter (fun x => x < c)) := by
      apply List.filter_congr
      intro x _
      simp only [decide_eq_decide]
      omega
    rw [hpred]

/-- Witness for C5 (amended): bit 8 of a two-byte file is bit 7 of its
second byte, and the C computed for `L = [1, 0, 1]` counts the symbols
below 2. -/
theorem c5_pfwg_load_amended_witness :
    (load_bitvector (List.replicate 9 false) [160, 128] 9).B.getD 8 false =
      Nat.testBit 128 7 ∧
    (symbol_frequencies8 [1, 0, 1]).getD 2 0 = 3 := by
  constructor
  · exact (c5_pfwg_load_amended.1 (List.replicate 9 false) [160, 128] 9
      (by simp) (by decide) 8 (by decide)).trans (by decide)
  · exact (c5_pfwg_load_amended.2.2 [1, 0, 1] (by decide) 2
      (by decide)).trans (by decide)

/-! ## C6 / C4 — the PFWG load paths -/

/-- `construct_from_pfwg` (`tfm_index.hpp`): `text_len` from the original
file's size, L from `.L`, `din`/`dout` loaded as `|L|+1`-bit vectors into
freshly allocated bitvectors, C recomputed by the byte overload of
`symbol_frequencies`.  The function performs no dimension or popcount
check. -/
def construct_from_pfwg (orig L dinFile doutFile : List ℕ) : TfmIndex :=
  { text_len := orig.length,
    L := L,
    C := symbol_frequencies8 L,
    dout := (load_bitvector (List.replicate (L.length + 1) false) doutFile
      (L.length + 1)).B,
    din := (load_bitvector (List.replicate (L.length + 1) false) dinFile
      (L.length + 1)).B }

set_option maxRecDepth 100000 in
/-- Counterexample to claim C6 as stated: loading `.L = [5]` with
`.din = 0xC0` (two ones) and `.dout = 0x00` (no ones) has mismatched
popcounts, yet loading completes and returns the fully populated index —
nothing aborts. -/
theorem c6_dimension_check_counterexample :
    rank1 (construct_from_pfwg [1, 2, 3] [5] [192] [0]).din 2 = 2 ∧
    rank1 (construct_from_pfwg [1, 2, 3] [5] [192] [0]).dout 2 = 0 ∧
    (construct_from_pfwg [1, 2, 3] [5] [192] [0]).din =
      [true, true] ∧
    (construct_from_pfwg [1, 2, 3] [5] [192] [0]).dout =
      [false, false] ∧
    (construct_from_pfwg [1, 2, 3] [5] [192] [0]).L = [5] ∧
    (construct_from_pfwg [1, 2, 3] [5] [192] [0]).text_len = 3 := by
  refine ⟨by decide, by decide, by decide, by decide, by decide, by decide⟩

/-- Claim C6 (amended): the loader never checks dimensions: for every
input, `construct_from_pfwg` returns an index whose `din` and `dout` have
exactly `|L| + 1` bits and whose other fields are fully populated, whether
or not the popcounts of `din` and `dout` agree. -/
theorem c6_no_dimension_check (orig L dinFile doutFile : List ℕ) :
    (construct_from_pfwg orig L dinFile doutFile).text_len = orig.length ∧
    (construct_from_pfwg orig L dinFile doutFile).L = L ∧
    (construct_from_pfwg orig L dinFile doutFile).C =
      symbol_frequencies8 L ∧
    (construct_from_pfwg orig L dinFile doutFile).din.length = L.length + 1 ∧
    (construct_from_pfwg orig L dinFile doutFile).dout.length =
      L.length + 1 := by
  unfold construct_from_pfwg
  dsimp only
  refine ⟨rfl, rfl, rfl, ?_, ?_⟩
  · exact (load_bitvector_spec _ dinFile (L.length + 1) (by simp)).1
  · exact (load_bitvector_spec _ doutFile (L.length + 1) (by simp)).1

/-- Modelled from the spec: `create_tfm` (called by
`tfm_index_invert.cpp` but absent from src/) performs the final assembly of
§4.5(b): install the given text length, the wavelet tree over L, C
recomputed from L, and the two bitvectors with their supports. -/
def create_tfm (orig_size : ℕ) (L : List ℕ) (din dout : List Bool) :
    TfmIndex :=
  { text_len := orig_size,
    L := L,
    C := symbol_frequencies8 L,
    dout := dout,
    din := din }

/-- The `construct_from_pfwg` of `tfm_index_invert.cpp`: identical loading
of the three side files, but the original size is the hard-coded constant
`12156306` instead of the input file's size. -/
def invert_construct_from_pfwg (L dinFile doutFile : List ℕ) : TfmIndex :=
  create_tfm 12156306 L
    ((load_bitvector (List.replicate (L.length + 1) false) dinFile
      (L.length + 1)).B)
    ((load_bitvector (List.replicate (L.length + 1) false) doutFile
      (L.length + 1)).B)

/-- The bytes `tfm_index_invert` writes to `FILE.untunneled`. -/
def invert_output (L dinFile doutFile : List ℕ) : List ℕ :=
  untunnel (invert_construct_from_pfwg L dinFile doutFile)

/-- Claim C4 is broken by the code: `untunnel` writes `tfm.size()`
characters and `tfm_index_invert.cpp` hard-codes the size as `12156306`, so
for the 7-byte input `banana$` (with any side files) `FILE.untunneled` has
`12156306` bytes and cannot be byte-identical to `FILE`. -/
theorem c4_hardcoded_size_bug :
    (invert_output [36, 97, 110, 110, 98, 97, 97, 97] [255] [255]).length =
      12156306 ∧
    ([98, 97, 110, 97, 110, 97, 36] : List ℕ).length = 7 ∧
    invert_output [36, 97, 110, 110, 98, 97, 97, 97] [255] [255] ≠
      [98, 97, 110, 97, 110, 97, 36] := by
  have h1 : (invert_output [36, 97, 110, 110, 98, 97, 97, 97] [255]
      [255]).length = 12156306 := by
    unfold invert_output
    rw [untunnel_length]
    rfl
  refine ⟨h1, rfl, ?_⟩
  intro hcontra
  have h2 := congrArg List.length hcontra
  rw [h1] at h2
  simp at h2

/-! ## C7 — serialization order and round trip

Every serialized field is one stream element.  The rank/select supports
serialize data derived from their bitvector, and `load` rebinds each
support to the bitvector loaded just before it (`m_dout_rank.load(in,
&m_dout)`), which in this model means the supports are recomputed from the
loaded bitvector and the stored payloads carry no extra information. -/

inductive SerField where
  | natF (v : ℕ)
  | wtF (v : List ℕ)
  | vecF (v : List ℕ)
  | bvF (v : List Bool)
  | rankF (v : List Bool)
  | selF (v : List Bool)

/-- `tfm_index::serialize`: `text_len`, L, C, `dout`, `dout` rank support,
`dout` select support, `din`, `din` rank support, `din` select support. -/
def serializeTfm (t : TfmIndex) : List SerField :=
  [SerField.natF t.text_len, SerField.wtF t.L, SerField.vecF t.C,
   SerField.bvF t.dout, SerField.rankF t.dout, SerField.selF t.dout,
   SerField.bvF t.din, SerField.rankF t.din, SerField.selF t.din]

/-- `tfm_index::load`: read the nine fields in the same order; each rank or
select support is rebound to the bitvector loaded just before it. -/
def loadTfm : List SerField → Option TfmIndex
  | [SerField.natF n, SerField.wtF l, SerField.vecF c,
     SerField.bvF dout1, SerField.rankF _, SerField.selF _,
     SerField.bvF din1, SerField.rankF _, SerField.selF _] =>
      some { text_len := n, L := l, C := c, dout := dout1, din := din1 }
  | _ => none

/-- Claim C7: `serialize` writes exactly the nine fields in the documented
order; `load` reads them back in the same order and rebinds the supports,
and the round trip reproduces the index exactly (hence the same `size()`
and the same `backwardstep` results from `end()`). -/
theorem c7_serialize_roundtrip (t : TfmIndex) :
    serializeTfm t =
      [SerField.natF t.text_len, SerField.wtF t.L, SerField.vecF t.C,
       SerField.bvF t.dout, SerField.rankF t.dout, SerField.selF t.dout,
       SerField.bvF t.din, SerField.rankF t.din, SerField.selF t.din] ∧
    loadTfm (serializeTfm t) = some t ∧
    ∀ u, loadTfm (serializeTfm t) = some u →
      u.size = t.size ∧ ∀ pos k, emitList u pos k = emitList t pos k := by
  refine ⟨rfl, rfl, ?_⟩
  intro u hu
  have : u = t := by
    have h2 : (some u : Option TfmIndex) = some t := by rw [← hu]; rfl
    exact (Option.some_injective _ h2)
  subst this
  exact ⟨rfl, fun _ _ => rfl⟩

/-! ## C8 — read operations mutate no index state

The C++ methods are `const`; the only writes in their bodies go through the
references `i`, `o` into the caller's position pair.  To make the frame
property expressible the index fields and the position are threaded through
one combined state, each C++ assignment becoming a record update. -/

structure FullState where
  text_len : ℕ
  L : List ℕ
  C : List ℕ
  dout : List Bool
  din : List Bool
  i : ℕ
  o : ℕ

def toTfm (s : FullState) : TfmIndex :=
  ⟨s.text_len, s.L, s.C, s.dout, s.din⟩

/-- `backwardstep` with every assignment made explicit on the combined
state: only `i` and `o` are ever assigned. -/
def stepFull (s : FullState) : FullState × ℕ :=
  let c := (inverse_select s.L s.i).2
  let r := (inverse_select s.L s.i).1
  let s1 := { s with i := s.C.getD c 0 + r }
  let k := rank1 s1.din (s1.i + 1)
  let s2 := if s1.din.getD s1.i false = false
            then { s1 with o := s1.i - select1 s1.din k } else s1
  let s3 := { s2 with i := select1 s2.dout k }
  let s4 := if s3.dout.getD (s3.i + 1) false = false
            then { s3 with i := s3.i + s3.o, o := 0 } else s3
  (s4, c)

/-- `end()` on the combined state: no assignment at all. -/
def endFull (s : FullState) : FullState × (ℕ × ℕ) := (s, (0, 0))

/-- `preceding_char` on the combined state: a read of `L[i]`, no
assignment. -/
def precedingFull (s : FullState) : FullState × ℕ := (s, s.L.getD s.i 0)

/-- Claim C8: `end()`, `preceding_char` and `backwardstep` leave every
index field untouched — the final state agrees with the initial one on
`text_len`, L, C, `dout`, `din` — and the only mutated data is the position
pair, which moves exactly as the pure `backwardstep`; so traversals carry
no index state and readers cannot interfere. -/
theorem c8_readonly_frame (s : FullState) :
    (stepFull s).1.text_len = s.text_len ∧
    (stepFull s).1.L = s.L ∧
    (stepFull s).1.C = s.C ∧
    (stepFull s).1.dout = s.dout ∧
    (stepFull s).1.din = s.din ∧
    ((stepFull s).1.i, (stepFull s).1.o) =
      ((toTfm s).backwardstep (s.i, s.o)).1 ∧
    (stepFull s).2 = ((toTfm s).backwardstep (s.i, s.o)).2 ∧
    (endFull s).1 = s ∧
    (endFull s).2 = (0, 0) ∧
    (precedingFull s).1 = s ∧
    (precedingFull s).2 = (toTfm s).preceding_char (s.i, s.o) := by
  simp only [stepFull, TfmIndex.backwardstep, toTfm, endFull, precedingFull,
    TfmIndex.preceding_char]
  split <;> split <;> simp

/-- Witness for C6 (amended) at a concrete mismatched input. -/
theorem c6_no_dimension_check_witness :
    (construct_from_pfwg [1, 2, 3] [5] [192] [0]).din.length = 2 :=
  (c6_no_dimension_check [1, 2, 3] [5] [192] [0]).2.2.2.1

/-- Witness for C7 at a concrete index. -/
theorem c7_serialize_roundtrip_witness :
    loadTfm (serializeTfm
      (TfmIndex.mk 1 [0] [0, 1] [true, true] [true, true])) =
      some (TfmIndex.mk 1 [0] [0, 1] [true, true] [true, true]) :=
  (c7_serialize_roundtrip _).2.1

/-- Witness for C8 at a concrete state. -/
theorem c8_readonly_frame_witness :
    (stepFull (FullState.mk 2 [2, 0, 1] [0, 1, 2] [true, true, true, true]
      [true, true, true, true] 0 0)).1.L = [2, 0, 1] :=
  (c8_readonly_frame _).2.1
